import Mathlib

/-!
PoetryHour: the JNI tokenizer bridge (`app/src/main/cpp/native-lib.cpp`).

A shallow embedding of the three JNI entry points `loadModel`, `encodeNative`
and `decodeNative`, of the process state they share (the static pointer
`processor`, the heap of engine objects it points into, the platform log) and
of the calls they make on the SentencePiece engine.

The engine itself (`sentencepiece::SentencePieceProcessor`) is an external
library: it is a parameter of the development, given by its constructor and
the three methods the bridge calls.
-/

namespace PoetryHour

/-! ## The external engine -/

/-- Value of `util::Status` as the bridge observes it: `ok()` and `ToString()`. -/
structure Status where
  ok : Bool
  ToString : String
deriving DecidableEq

/-- Interface of `sentencepiece::SentencePieceProcessor` as used by the bridge,
over a type `σ` of object states.  `ctor` is the state after the default
constructor; `Load` updates the object and returns a status; `Encode` and
`IdToPiece` are `const` methods: `Encode p text` is the content of the output
vector (passed in empty) after the call, `IdToPiece p id` the returned
`std::string`. -/
structure SentencePieceProcessor (σ : Type) where
  ctor : σ
  Load : σ → String → σ × Status
  Encode : σ → String → List Int
  IdToPiece : σ → Int → String

/-! ## Process state -/

/-- One operation performed on an engine object, with the address of the object. -/
inductive EngineCall where
  | construct (a : Nat)
  | destroy (a : Nat)
  | Load (a : Nat) (path : String)
  | Encode (a : Nat) (text : String)
  | IdToPiece (a : Nat) (id : Int)
deriving DecidableEq

/-- One line written by `__android_log_print`. -/
structure LogLine where
  prio : Nat
  tag : String
  msg : String
deriving DecidableEq

/-- Priority constant `ANDROID_LOG_ERROR` of `android/log.h`. -/
def ANDROID_LOG_ERROR : Nat := 6

/-- State of the process as far as the bridge touches it.
* `processor` is the static pointer of line 9 (`none` is `nullptr`);
* `heap` holds the engine objects that are live (constructed and not yet
  deleted), each under its address;
* `next` is the address the next `new` hands out (addresses are never reused,
  so an address identifies one object);
* `logcat` is the platform log;
* `calls` records, in order, every operation performed on an engine object. -/
structure Process (σ : Type) where
  processor : Option Nat
  heap : List (Nat × σ)
  next : Nat
  logcat : List LogLine
  calls : List EngineCall
deriving DecidableEq

namespace Process

variable {σ : Type}

/-- State at process start: `processor = nullptr`, nothing allocated. -/
def init : Process σ :=
  { processor := none, heap := [], next := 0, logcat := [], calls := [] }

/-- Addresses of the live engine objects. -/
def live (s : Process σ) : List Nat := s.heap.map (fun c => c.1)

/-- Object stored at address `a`, if `a` is live. -/
def deref (s : Process σ) (a : Nat) : Option σ := s.heap.lookup a

/-- Append one engine operation to the record. -/
def record (s : Process σ) (c : EngineCall) : Process σ :=
  { s with calls := s.calls ++ [c] }

/-- Expression `new T()` whose constructor leaves the object in state `v`:
a fresh address, now live. -/
def new (s : Process σ) (v : σ) : Process σ × Nat :=
  ({ s with heap := (s.next, v) :: s.heap, next := s.next + 1,
            calls := s.calls ++ [EngineCall.construct s.next] }, s.next)

/-- Statement `delete p` for `p` at address `a`; undefined (`none`) when `a`
is not live. -/
def delete (s : Process σ) (a : Nat) : Option (Process σ) :=
  if a ∈ s.live then
    some { s with heap := s.heap.filter (fun c => c.1 != a),
                  calls := s.calls ++ [EngineCall.destroy a] }
  else none

/-- Overwrite the object at address `a` (a mutating method has run on it). -/
def store (s : Process σ) (a : Nat) (v : σ) : Process σ :=
  { s with heap := s.heap.map (fun c => if c.1 == a then (a, v) else c) }

/-- Object the static pointer refers to, if any. -/
def engine (s : Process σ) : Option σ := s.processor.bind s.deref

/-- Heap is well formed and the pointer does not dangle: every live address
was handed out before, and `processor` is null or live. -/
def Valid (s : Process σ) : Prop :=
  (∀ a ∈ s.live, a < s.next) ∧ (∀ a ∈ s.processor, a ∈ s.live)

/-- At most one engine object is live, and it is the one `processor` points to. -/
def OneLive (s : Process σ) : Prop := s.live = s.processor.toList

end Process

/-! ## JNI marshalling -/

/-- The terminator of C strings. -/
def NUL : Char := Char.ofNat 0

/-- Word-boundary marker of SentencePiece, U+2581. -/
def marker : Char := Char.ofNat 0x2581

/-- The JNI function `GetStringUTFChars`: the characters of a Java string as a
C string.  The encoding is modified UTF-8, in which no character produces a
zero byte, so the C string carries every character of the Java string. -/
def GetStringUTFChars (s : String) : String := s

/-- The method `std::string::c_str` as seen by a reader of `const char*`, which
stops at the first zero byte: the characters before the first NUL. -/
def c_str (s : String) : String := String.mk (s.data.takeWhile (fun c => c != NUL))

/-- The JNI function `NewStringUTF`: a Java string with the characters of a
C string. -/
def NewStringUTF (cs : String) : String := cs

/-- The JNI function `NewIntArray`: a zero-filled Java `int[]` of the given
length. -/
def NewIntArray (n : Nat) : List Int := List.replicate n 0

/-- The JNI function `SetIntArrayRegion(array, start, len, buf)`: copy `len`
elements of `buf` over the elements of `array` at indices `start` to
`start + len - 1`.  A Java array never changes length: when the region does not
fit in the array the call raises `ArrayIndexOutOfBoundsException` and copies
nothing, and the array is left as it was (likewise here when `buf` holds fewer
than `len` elements, which the C caller must not do). -/
def SetIntArrayRegion (array : List Int) (start len : Nat) (buf : List Int) : List Int :=
  if start + len ≤ array.length ∧ len ≤ buf.length then
    array.take start ++ buf.take len ++ array.drop (start + len)
  else array

/-! ## The three entry points -/

variable {σ : Type}

/-- Entry point `Java_com_nilio_poetryhour_NativeTokenizer_loadModel`
(lines 11-34): delete the engine the pointer refers to, if any; construct a
new one and point to it; `Load` the path into it; on a status that is not ok
write the log line and return false, otherwise return true.  The result is
`none` only where the source has undefined behaviour (a dangling pointer). -/
def loadModel (E : SentencePieceProcessor σ) (s : Process σ) (path : String) :
    Option (Process σ × Bool) :=
  let nativePath := GetStringUTFChars path
  -- if (processor) { delete processor; }
  let deleted : Option (Process σ) :=
    match s.processor with
    | some a => s.delete a
    | none => some s
  match deleted with
  | none => none
  | some s1 =>
    -- processor = new sentencepiece::SentencePieceProcessor();
    let s2 := { (s1.new E.ctor).1 with processor := some (s1.new E.ctor).2 }
    let a := (s1.new E.ctor).2
    -- const auto status = processor->Load(nativePath);
    match s2.deref a with
    | none => none
    | some p =>
      let r := E.Load p nativePath
      let s3 := (s2.store a r.1).record (EngineCall.Load a nativePath)
      let status := r.2
      -- env->ReleaseStringUTFChars(path, nativePath): no effect on this state
      if !status.ok then
        some ({ s3 with logcat := s3.logcat ++
                  [{ prio := ANDROID_LOG_ERROR, tag := "SPM_JNI",
                     msg := "Failed to load: " ++ c_str status.ToString }] }, false)
      else
        some (s3, true)

/-- Entry point `Java_com_nilio_poetryhour_NativeTokenizer_encodeNative`
(lines 36-56). -/
def encodeNative (E : SentencePieceProcessor σ) (s : Process σ) (text : String) :
    Option (Process σ × List Int) :=
  match s.processor with
  -- if (!processor) return env->NewIntArray(0);
  | none => some (s, NewIntArray 0)
  | some a =>
    let nativeText := GetStringUTFChars text
    -- std::vector<int> ids; processor->Encode(nativeText, &ids);
    match s.deref a with
    | none => none
    | some p =>
      let ids := E.Encode p nativeText
      let s1 := s.record (EngineCall.Encode a nativeText)
      -- env->ReleaseStringUTFChars(text, nativeText): no effect on this state
      -- jintArray result = env->NewIntArray(ids.size());
      let result := NewIntArray ids.length
      -- env->SetIntArrayRegion(result, 0, ids.size(), ids.data()); return result;
      some (s1, SetIntArrayRegion result 0 ids.length ids)

/-- Entry point `Java_com_nilio_poetryhour_NativeTokenizer_decodeNative`
(lines 58-71). -/
def decodeNative (E : SentencePieceProcessor σ) (s : Process σ) (id : Int) :
    Option (Process σ × String) :=
  match s.processor with
  -- if (!processor) return env->NewStringUTF("");
  | none => some (s, NewStringUTF "")
  | some a =>
    -- std::string piece = processor->IdToPiece(id);
    match s.deref a with
    | none => none
    | some p =>
      let piece := E.IdToPiece p id
      let s1 := s.record (EngineCall.IdToPiece a id)
      -- return env->NewStringUTF(piece.c_str());
      some (s1, NewStringUTF (c_str piece))

/-! ## Call sequences -/

/-- One call made by the Java side. -/
inductive Call where
  | loadModel (path : String)
  | encodeNative (text : String)
  | decodeNative (id : Int)
deriving DecidableEq

/-- Value returned to the Java side. -/
inductive Output where
  | jboolean (b : Bool)
  | jintArray (ids : List Int)
  | jstring (s : String)
deriving DecidableEq

/-- Perform one call. -/
def step (E : SentencePieceProcessor σ) (s : Process σ) : Call → Option (Process σ × Output)
  | Call.loadModel path => (loadModel E s path).map (fun r => (r.1, Output.jboolean r.2))
  | Call.encodeNative text => (encodeNative E s text).map (fun r => (r.1, Output.jintArray r.2))
  | Call.decodeNative id => (decodeNative E s id).map (fun r => (r.1, Output.jstring r.2))

/-- Perform a sequence of calls in order, collecting the returned values. -/
def run (E : SentencePieceProcessor σ) (s : Process σ) : List Call → Option (Process σ × List Output)
  | [] => some (s, [])
  | c :: cs =>
    match step E s c with
    | none => none
    | some (s1, o) =>
      match run E s1 cs with
      | none => none
      | some (s2, os) => some (s2, o :: os)

/-- What an engine object in state `p` answers to an encode or decode call
(`none` for a load call, which no existing object answers). -/
def answer (E : SentencePieceProcessor σ) (p : σ) : Call → Option Output
  | Call.loadModel _ => none
  | Call.encodeNative text => some (Output.jintArray (E.Encode p (GetStringUTFChars text)))
  | Call.decodeNative id => some (Output.jstring (NewStringUTF (c_str (E.IdToPiece p id))))

/-- The call is a `loadModel`. -/
def Call.isLoad : Call → Bool
  | Call.loadModel _ => true
  | _ => false

/-! ## A small concrete engine

Used to evaluate the bridge on concrete inputs.  Its object state is the
vocabulary (empty until a model is loaded); only the path `en.model` loads. -/

/-- Vocabulary of the model file `en.model`. -/
def enVocab : List String :=
  ["<unk>", String.singleton marker, "a", "b", String.mk ['x', NUL, 'y'],
   String.mk [marker, 'a', 'b']]

/-- A toy engine: one id per character, id 0 for unknown characters. -/
def toy : SentencePieceProcessor (List String) where
  ctor := []
  Load := fun v path =>
    if path = "en.model" then (enVocab, { ok := true, ToString := "OK" })
    else (v, { ok := false, ToString := "Not found: " ++ path })
  Encode := fun v text =>
    match v with
    | [] => []
    | _ => text.data.map (fun c =>
        if String.singleton c ∈ v then Int.ofNat (v.indexOf (String.singleton c)) else 0)
  IdToPiece := fun v id => if 0 ≤ id then v.getD id.toNat "" else ""

/-- State of the toy process right after `loadModel("en.model")` from the start. -/
def enLoaded : Process (List String) :=
  { processor := some 0, heap := [(0, enVocab)], next := 1, logcat := [],
    calls := [EngineCall.construct 0, EngineCall.Load 0 "en.model"] }

/-- Engine operation a call performs when it is delegated to the object at
address `a` (`none` for a load call). -/
def Call.onEngine (a : Nat) : Call → Option EngineCall
  | Call.loadModel _ => none
  | Call.encodeNative text => some (EngineCall.Encode a (GetStringUTFChars text))
  | Call.decodeNative id => some (EngineCall.IdToPiece a id)

/-! ## Heap lemmas -/

section Lemmas
variable (E : SentencePieceProcessor σ)

theorem lookup_isSome_of_mem (l : List (Nat × σ)) (a : Nat) (h : a ∈ l.map (fun c => c.1)) :
    ∃ p, l.lookup a = some p := by
  induction l with
  | nil => simp at h
  | cons c cs ih =>
    obtain ⟨k, v⟩ := c
    by_cases hk : a = k
    · subst hk; exact ⟨v, by simp [List.lookup]⟩
    · have h1 : a ∈ cs.map (fun c => c.1) := by
        simpa [hk] using h
      obtain ⟨p, hp⟩ := ih h1
      refine ⟨p, ?_⟩
      have : (a == k) = false := by simpa using hk
      simp [List.lookup, this, hp]

theorem map_fst_filter (l : List (Nat × σ)) (a : Nat) :
    (l.filter (fun c => c.1 != a)).map (fun c => c.1) = (l.map (fun c => c.1)).filter (fun b => b != a) := by
  induction l with
  | nil => rfl
  | cons c cs ih =>
    by_cases h : c.1 = a
    · simp [List.filter_cons, h, ih]
    · simp [List.filter_cons, h, ih]

theorem Process.deref_of_mem_live (s : Process σ) (a : Nat) (h : a ∈ s.live) :
    ∃ p, s.deref a = some p := lookup_isSome_of_mem s.heap a h

theorem filter_bne_none (l : List Nat) :
    l.filter (fun b => some b != (none : Option Nat)) = l := by
  induction l with
  | nil => rfl
  | cons b bs ih =>
    have hb : (some b != (none : Option Nat)) = true := by simp
    simp only [List.filter_cons, hb, ih, if_true]

theorem filter_bne_some (l : List Nat) (a : Nat) :
    l.filter (fun b => some b != some a) = l.filter (fun b => b != a) := by
  induction l with
  | nil => rfl
  | cons b bs ih =>
    have hb : (some b != some a) = (b != a) := by
      rw [Bool.eq_iff_iff]; simp
    simp only [List.filter_cons, hb, ih]

theorem fst_comp_store (a : Nat) (v : σ) :
    ((fun c : Nat × σ => c.1) ∘ fun c => if c.1 = a then (a, v) else c) = fun c => c.1 := by
  funext c
  by_cases h : c.1 = a <;> simp [h]

theorem Process.delete_of_mem (s : Process σ) (a : Nat) (h : a ∈ s.live) :
    s.delete a = some { s with heap := s.heap.filter (fun c => c.1 != a),
                               calls := s.calls ++ [EngineCall.destroy a] } := by
  unfold Process.delete
  rw [if_pos h]

/-- What `loadModel` does from a state whose pointer does not dangle. -/
theorem loadModel_spec (s : Process σ) (path : String) (h : ∀ a ∈ s.processor, a ∈ s.live) :
    ∃ s1, loadModel E s path = some (s1, (E.Load E.ctor (GetStringUTFChars path)).2.ok)
      ∧ s1.processor = some s.next
      ∧ s1.deref s.next = some (E.Load E.ctor (GetStringUTFChars path)).1
      ∧ s1.next = s.next + 1
      ∧ s1.live = s.next :: s.live.filter (fun b => some b != s.processor)
      ∧ s1.calls = s.calls ++ s.processor.toList.map EngineCall.destroy
          ++ [EngineCall.construct s.next, EngineCall.Load s.next (GetStringUTFChars path)] := by
  cases hp : s.processor with
  | none =>
    cases hok : (E.Load E.ctor (GetStringUTFChars path)).2.ok <;>
      simp [loadModel, hp, hok, Process.new, Process.deref, Process.store, Process.record,
        Process.live, List.lookup, fst_comp_store, filter_bne_none]
  | some a =>
    have ha : a ∈ s.live := h a (by simp [hp])
    unfold loadModel
    simp only [hp]
    rw [Process.delete_of_mem s a ha]
    cases hok : (E.Load E.ctor (GetStringUTFChars path)).2.ok <;>
      simp [hok, Process.new, Process.deref, Process.store, Process.record,
        List.lookup, Process.live, fst_comp_store, map_fst_filter, filter_bne_some]

/-- An array keeps its length under `SetIntArrayRegion`, whatever the region. -/
theorem setRegion_length (array : List Int) (start len : Nat) (buf : List Int) :
    (SetIntArrayRegion array start len buf).length = array.length := by
  unfold SetIntArrayRegion
  split
  · rename_i h
    simp only [List.length_append, List.length_take, List.length_drop]
    omega
  · rfl

theorem newIntArray_length (n : Nat) : (NewIntArray n).length = n := by
  simp [NewIntArray]

theorem setRegion_whole (ids : List Int) :
    SetIntArrayRegion (NewIntArray ids.length) 0 ids.length ids = ids := by
  have hfit : 0 + ids.length ≤ (NewIntArray ids.length).length ∧ ids.length ≤ ids.length := by
    rw [newIntArray_length]; exact ⟨by omega, Nat.le_refl _⟩
  unfold SetIntArrayRegion
  rw [if_pos hfit]
  simp [NewIntArray]

theorem encodeNative_null (s : Process σ) (text : String) (h : s.processor = none) :
    encodeNative E s text = some (s, []) := by
  simp [encodeNative, h, NewIntArray]

theorem encodeNative_spec (s : Process σ) (text : String) (a : Nat) (p : σ)
    (ha : s.processor = some a) (hp : s.deref a = some p) :
    encodeNative E s text =
      some (s.record (EngineCall.Encode a (GetStringUTFChars text)),
            E.Encode p (GetStringUTFChars text)) := by
  simp only [encodeNative, ha, hp, setRegion_whole]

theorem decodeNative_null (s : Process σ) (id : Int) (h : s.processor = none) :
    decodeNative E s id = some (s, "") := by
  simp [decodeNative, h, NewStringUTF]

theorem decodeNative_spec (s : Process σ) (id : Int) (a : Nat) (p : σ)
    (ha : s.processor = some a) (hp : s.deref a = some p) :
    decodeNative E s id =
      some (s.record (EngineCall.IdToPiece a id), NewStringUTF (c_str (E.IdToPiece p id))) := by
  simp only [decodeNative, ha, hp]

theorem Process.valid_record (s : Process σ) (c : EngineCall) (h : s.Valid) :
    (s.record c).Valid := h

theorem Process.oneLive_record (s : Process σ) (c : EngineCall) (h : s.OneLive) :
    (s.record c).OneLive := h

/-- In a valid state the pointer is null or points to a live object. -/
theorem Process.Valid.cases (s : Process σ) (h : s.Valid) :
    (s.processor = none ∧ s.engine = none) ∨
      ∃ a p, s.processor = some a ∧ s.deref a = some p ∧ s.engine = some p := by
  cases hp : s.processor with
  | none => left; simp [Process.engine, hp]
  | some a =>
    right
    obtain ⟨p, hd⟩ := s.deref_of_mem_live a (h.2 a (by simp [hp]))
    exact ⟨a, p, rfl, hd, by simp [Process.engine, hp, hd]⟩

theorem loadModel_valid (s : Process σ) (path : String) (h : s.Valid) :
    ∃ s1, loadModel E s path = some (s1, (E.Load E.ctor (GetStringUTFChars path)).2.ok)
      ∧ s1.Valid ∧ s1.processor = some s.next
      ∧ s1.engine = some (E.Load E.ctor (GetStringUTFChars path)).1 := by
  obtain ⟨s1, h1, hproc, hder, hnext, hlive, -⟩ := loadModel_spec E s path h.2
  refine ⟨s1, h1, ⟨?_, ?_⟩, hproc, ?_⟩
  · intro a ha
    rw [hlive] at ha
    rw [hnext]
    rcases List.mem_cons.1 ha with rfl | ha
    · exact Nat.lt_succ_self _
    · exact Nat.lt_succ_of_lt (h.1 a (List.mem_filter.1 ha).1)
  · intro a ha
    rw [hproc] at ha
    have : a = s.next := by simpa using ha.symm
    rw [hlive, this]
    exact List.mem_cons_self _ _
  · simp [Process.engine, hproc, hder]

theorem loadModel_oneLive (s : Process σ) (path : String) (h : s.Valid) (ho : s.OneLive) :
    ∀ s1 b, loadModel E s path = some (s1, b) → s1.OneLive := by
  intro s1 b hb
  obtain ⟨s2, h2, hproc, -, -, hlive, -⟩ := loadModel_spec E s path h.2
  rw [h2] at hb
  have : s2 = s1 := by
    have := Option.some.inj hb
    exact congrArg Prod.fst this
  subst this
  unfold Process.OneLive at ho ⊢
  rw [hlive, hproc, ho]
  cases hp : s.processor <;> simp

/-! ## Single calls and call sequences -/

/-- From a valid state every call returns, the state stays valid, the
one-live-object invariant is kept, and a non-null pointer stays non-null. -/
theorem step_valid (s : Process σ) (c : Call) (hv : s.Valid) :
    ∃ s1 o, step E s c = some (s1, o) ∧ s1.Valid ∧ (s.OneLive → s1.OneLive)
      ∧ (s.processor ≠ none → s1.processor ≠ none) := by
  cases c with
  | loadModel path =>
    obtain ⟨s1, h1, hv1, hproc, -⟩ := loadModel_valid E s path hv
    refine ⟨s1, _, by simp only [step, h1]; rfl, hv1, ?_, ?_⟩
    · intro ho
      exact loadModel_oneLive E s path hv ho s1 _ h1
    · intro _
      simp [hproc]
  | encodeNative text =>
    rcases Process.Valid.cases s hv with ⟨hn, -⟩ | ⟨a, p, ha, hp, -⟩
    · exact ⟨s, _, by simp only [step, encodeNative_null E s text hn]; rfl, hv, id, id⟩
    · exact ⟨_, _, by simp only [step, encodeNative_spec E s text a p ha hp]; rfl,
        s.valid_record _ hv, fun ho => s.oneLive_record _ ho, id⟩
  | decodeNative i =>
    rcases Process.Valid.cases s hv with ⟨hn, -⟩ | ⟨a, p, ha, hp, -⟩
    · exact ⟨s, _, by simp only [step, decodeNative_null E s i hn]; rfl, hv, id, id⟩
    · exact ⟨_, _, by simp only [step, decodeNative_spec E s i a p ha hp]; rfl,
        s.valid_record _ hv, fun ho => s.oneLive_record _ ho, id⟩

theorem run_valid (cs : List Call) : ∀ (s : Process σ), s.Valid →
    ∃ s1 os, run E s cs = some (s1, os) ∧ s1.Valid ∧ (s.OneLive → s1.OneLive)
      ∧ (s.processor ≠ none → s1.processor ≠ none) := by
  induction cs with
  | nil => intro s hv; exact ⟨s, [], rfl, hv, id, id⟩
  | cons c cs ih =>
    intro s hv
    obtain ⟨s1, o, h1, hv1, ho1, hp1⟩ := step_valid E s c hv
    obtain ⟨s2, os, h2, hv2, ho2, hp2⟩ := ih s1 hv1
    exact ⟨s2, o :: os, by simp only [run, h1, h2], hv2, fun h => ho2 (ho1 h),
      fun h => hp2 (hp1 h)⟩

/-- Two valid states whose pointers refer to equal engines (or are both null)
answer every call alike, and stay so related. -/
theorem step_sim (s t : Process σ) (c : Call) (hs : s.Valid) (ht : t.Valid)
    (he : s.engine = t.engine) :
    ∃ s1 t1 o, step E s c = some (s1, o) ∧ step E t c = some (t1, o)
      ∧ s1.Valid ∧ t1.Valid ∧ s1.engine = t1.engine := by
  cases c with
  | loadModel path =>
    obtain ⟨s1, h1, hv1, -, e1⟩ := loadModel_valid E s path hs
    obtain ⟨t1, h2, hv2, -, e2⟩ := loadModel_valid E t path ht
    exact ⟨s1, t1, _, by simp only [step, h1]; rfl, by simp only [step, h2]; rfl, hv1, hv2,
      e1.trans e2.symm⟩
  | encodeNative text =>
    rcases Process.Valid.cases s hs with ⟨hn, en⟩ | ⟨a, p, ha, hp, ep⟩ <;>
    rcases Process.Valid.cases t ht with ⟨hn2, en2⟩ | ⟨a2, p2, ha2, hp2, ep2⟩
    · exact ⟨s, t, _, by simp only [step, encodeNative_null E s text hn]; rfl,
        by simp only [step, encodeNative_null E t text hn2]; rfl, hs, ht, he⟩
    · rw [en, ep2] at he; cases he
    · rw [ep, en2] at he; cases he
    · have hpp : p = p2 := by rw [ep, ep2] at he; exact Option.some.inj he
      subst hpp
      exact ⟨_, _, _, by simp only [step, encodeNative_spec E s text a p ha hp]; rfl,
        by simp only [step, encodeNative_spec E t text a2 p ha2 hp2]; rfl,
        s.valid_record _ hs, t.valid_record _ ht, he⟩
  | decodeNative i =>
    rcases Process.Valid.cases s hs with ⟨hn, en⟩ | ⟨a, p, ha, hp, ep⟩ <;>
    rcases Process.Valid.cases t ht with ⟨hn2, en2⟩ | ⟨a2, p2, ha2, hp2, ep2⟩
    · exact ⟨s, t, _, by simp only [step, decodeNative_null E s i hn]; rfl,
        by simp only [step, decodeNative_null E t i hn2]; rfl, hs, ht, he⟩
    · rw [en, ep2] at he; cases he
    · rw [ep, en2] at he; cases he
    · have hpp : p = p2 := by rw [ep, ep2] at he; exact Option.some.inj he
      subst hpp
      exact ⟨_, _, _, by simp only [step, decodeNative_spec E s i a p ha hp]; rfl,
        by simp only [step, decodeNative_spec E t i a2 p ha2 hp2]; rfl,
        s.valid_record _ hs, t.valid_record _ ht, he⟩

theorem run_sim (cs : List Call) : ∀ (s t : Process σ), s.Valid → t.Valid →
    s.engine = t.engine →
    ∃ s1 t1 os, run E s cs = some (s1, os) ∧ run E t cs = some (t1, os) := by
  induction cs with
  | nil => intro s t _ _ _; exact ⟨s, t, [], rfl, rfl⟩
  | cons c cs ih =>
    intro s t hs ht he
    obtain ⟨s1, t1, o, h1, h2, hs1, ht1, he1⟩ := step_sim E s t c hs ht he
    obtain ⟨s2, t2, os, h3, h4⟩ := ih s1 t1 hs1 ht1 he1
    exact ⟨s2, t2, o :: os, by simp only [run, h1, h3], by simp only [run, h2, h4]⟩

/-- A sequence of encode and decode calls on a non-null pointer: every call is
answered by the engine the pointer refers to, and neither the pointer nor the
heap changes. -/
theorem run_noLoad (cs : List Call) : ∀ (s : Process σ) (a : Nat) (p : σ),
    s.processor = some a → s.deref a = some p → (∀ c ∈ cs, c.isLoad = false) →
    ∃ s1 os, run E s cs = some (s1, os) ∧ os.map some = cs.map (answer E p)
      ∧ s1.processor = s.processor ∧ s1.heap = s.heap
      ∧ s1.calls = s.calls ++ cs.filterMap (Call.onEngine a) := by
  induction cs with
  | nil => intro s a p _ _ _; exact ⟨s, [], rfl, rfl, rfl, rfl, by simp⟩
  | cons c cs ih =>
    intro s a p ha hp hcs
    have hc : c.isLoad = false := hcs c (List.mem_cons_self _ _)
    have hrest : ∀ d ∈ cs, d.isLoad = false := fun d hd => hcs d (List.mem_cons_of_mem _ hd)
    cases c with
    | loadModel path => simp [Call.isLoad] at hc
    | encodeNative text =>
      obtain ⟨s2, os, h2, hos, hpr, hh, hcl⟩ :=
        ih (s.record (EngineCall.Encode a (GetStringUTFChars text))) a p ha hp hrest
      refine ⟨s2, Output.jintArray (E.Encode p (GetStringUTFChars text)) :: os, by
        simp only [run, step, encodeNative_spec E s text a p ha hp, Option.map, h2], ?_,
        hpr, hh, ?_⟩
      · simp only [List.map_cons, hos, answer]
      · rw [hcl]; simp [Process.record, Call.onEngine]
    | decodeNative i =>
      obtain ⟨s2, os, h2, hos, hpr, hh, hcl⟩ :=
        ih (s.record (EngineCall.IdToPiece a i)) a p ha hp hrest
      refine ⟨s2, Output.jstring (NewStringUTF (c_str (E.IdToPiece p i))) :: os, by
        simp only [run, step, decodeNative_spec E s i a p ha hp, Option.map, h2], ?_,
        hpr, hh, ?_⟩
      · simp only [List.map_cons, hos, answer]
      · rw [hcl]; simp [Process.record, Call.onEngine]

end Lemmas

/-! ## Claims -/

section Claims
variable (E : SentencePieceProcessor σ)

theorem valid_init : (Process.init : Process σ).Valid := by
  constructor <;> intro a ha <;> simp [Process.init, Process.live] at ha

theorem valid_enLoaded : enLoaded.Valid := by
  constructor <;> intro a ha <;> simp [enLoaded, Process.live] at ha <;> simp [enLoaded, Process.live, ha]

/-- C2: in the initial state (null pointer, no load made) `encodeNative`
returns, for every text, an int array of length 0 and leaves the whole state,
the record of engine calls included, as it was: the engine is not called. -/
theorem C2_encode_before_load (text : String) :
    ∃ s1 ids, encodeNative E Process.init text = some (s1, ids) ∧ ids.length = 0
      ∧ s1 = Process.init ∧ s1.calls = [] :=
  ⟨Process.init, [], encodeNative_null E Process.init text rfl, rfl, rfl, rfl⟩

/-- C3: in the initial state (null pointer, no load made) `decodeNative`
returns, for every id, the empty string and leaves the whole state, the record
of engine calls included, as it was: the engine is not called. -/
theorem C3_decode_before_load (id : Int) :
    ∃ s1 r, decodeNative E Process.init id = some (s1, r) ∧ r = ""
      ∧ s1 = Process.init ∧ s1.calls = [] :=
  ⟨Process.init, "", decodeNative_null E Process.init id rfl, rfl, rfl, rfl⟩

/-- C4: from every valid prior state and for every path, `loadModel` returns
normally, and the value returned is `true` exactly when `Load` on the newly
constructed engine reports an ok status; for a status that is not ok the value
is `false`. -/
theorem C4_load_result (s : Process σ) (P : String) (hv : s.Valid) :
    ∃ s1 b, loadModel E s P = some (s1, b)
      ∧ (b = true ↔ (E.Load E.ctor (GetStringUTFChars P)).2.ok = true)
      ∧ ((E.Load E.ctor (GetStringUTFChars P)).2.ok = false → b = false) := by
  obtain ⟨s1, h1, -⟩ := loadModel_valid E s P hv
  exact ⟨s1, _, h1, Iff.rfl, id⟩

theorem C4_load_result_witness :
    enLoaded.Valid ∧ ∃ s1 b, loadModel toy enLoaded "missing.model" = some (s1, b)
      ∧ (b = true ↔ (toy.Load toy.ctor (GetStringUTFChars "missing.model")).2.ok = true)
      ∧ ((toy.Load toy.ctor (GetStringUTFChars "missing.model")).2.ok = false → b = false) :=
  ⟨valid_enLoaded, C4_load_result toy enLoaded "missing.model" valid_enLoaded⟩

/-- C5: from every valid prior state (pointer null or not), when `Load` reports
a status that is not ok, `loadModel` returns `false` and leaves the pointer
non-null, at the fresh address of the engine it has just constructed; a
following `encodeNative` or `decodeNative` is delegated to that engine and
does not take the empty-result branch. -/
theorem C5_failed_load_keeps_engine (s : Process σ) (P : String) (hv : s.Valid)
    (hfail : (E.Load E.ctor (GetStringUTFChars P)).2.ok = false) :
    ∃ s1, loadModel E s P = some (s1, false)
      ∧ s1.processor = some s.next ∧ s.next ∉ s.live
      ∧ s1.engine = some (E.Load E.ctor (GetStringUTFChars P)).1
      ∧ (∀ text, encodeNative E s1 text =
          some (s1.record (EngineCall.Encode s.next (GetStringUTFChars text)),
                E.Encode (E.Load E.ctor (GetStringUTFChars P)).1 (GetStringUTFChars text)))
      ∧ (∀ id, decodeNative E s1 id =
          some (s1.record (EngineCall.IdToPiece s.next id),
                NewStringUTF (c_str (E.IdToPiece (E.Load E.ctor (GetStringUTFChars P)).1 id)))) := by
  obtain ⟨s1, h1, hproc, hder, -⟩ := loadModel_spec E s P hv.2
  rw [hfail] at h1
  refine ⟨s1, h1, hproc, ?_, ?_, ?_, ?_⟩
  · intro hmem
    exact Nat.lt_irrefl _ (hv.1 _ hmem)
  · simp [Process.engine, hproc, hder]
  · intro text
    exact encodeNative_spec E s1 text _ _ hproc hder
  · intro id
    exact decodeNative_spec E s1 id _ _ hproc hder

theorem C5_failed_load_keeps_engine_witness :
    (Process.init : Process (List String)).Valid
      ∧ (toy.Load toy.ctor (GetStringUTFChars "nowhere")).2.ok = false
      ∧ ∃ s1, loadModel toy Process.init "nowhere" = some (s1, false)
      ∧ s1.processor = some (Process.init : Process (List String)).next
      ∧ (Process.init : Process (List String)).next ∉ (Process.init : Process (List String)).live
      ∧ s1.engine = some (toy.Load toy.ctor (GetStringUTFChars "nowhere")).1
      ∧ (∀ text, encodeNative toy s1 text =
          some (s1.record (EngineCall.Encode (Process.init : Process (List String)).next
                  (GetStringUTFChars text)),
                toy.Encode (toy.Load toy.ctor (GetStringUTFChars "nowhere")).1
                  (GetStringUTFChars text)))
      ∧ (∀ id, decodeNative toy s1 id =
          some (s1.record (EngineCall.IdToPiece (Process.init : Process (List String)).next id),
                NewStringUTF (c_str (toy.IdToPiece
                  (toy.Load toy.ctor (GetStringUTFChars "nowhere")).1 id)))) :=
  ⟨valid_init, by decide, C5_failed_load_keeps_engine toy Process.init "nowhere" valid_init (by decide)⟩

/-- C8, as stated, fails: the piece of the toy engine for id 4 is `x`, NUL, `y`, and
`decodeNative` returns only `x`. -/
theorem C8_counterexample :
    ¬ ∀ (s : Process (List String)) (id : Int) (a : Nat) (p : List String),
        s.processor = some a → s.deref a = some p →
        ∃ s1, decodeNative toy s id = some (s1, toy.IdToPiece p id) := by
  intro h
  obtain ⟨s1, h1⟩ := h enLoaded 4 0 enVocab rfl rfl
  have h2 : (decodeNative toy enLoaded 4).map (fun r => r.2) = some (toy.IdToPiece enVocab 4) := by
    rw [h1]; rfl
  revert h2
  decide

/-- C8, amended: with a non-null pointer to a live engine, `decodeNative`
passes every integer id as it is to `IdToPiece` of the engine (no bounds check)
and returns the characters of the piece that precede its first NUL, in order
and unchanged; a piece with no NUL is returned whole, so the marker U+2581 and
every other character other than NUL is neither stripped nor replaced. -/
theorem C8_decode_returns_piece (s : Process σ) (id : Int) (a : Nat) (p : σ)
    (ha : s.processor = some a) (hp : s.deref a = some p) :
    ∃ s1 r, decodeNative E s id = some (s1, r)
      ∧ s1.calls = s.calls ++ [EngineCall.IdToPiece a id]
      ∧ r.data = (E.IdToPiece p id).data.takeWhile (fun c => c != NUL)
      ∧ (NUL ∉ (E.IdToPiece p id).data → r = E.IdToPiece p id) := by
  refine ⟨_, _, decodeNative_spec E s id a p ha hp, rfl, rfl, ?_⟩
  intro hn
  have ht : (E.IdToPiece p id).data.takeWhile (fun c => c != NUL) = (E.IdToPiece p id).data := by
    apply List.takeWhile_eq_self_iff.2
    intro c hc
    have : c ≠ NUL := fun h => hn (h ▸ hc)
    simpa using this
  simp only [NewStringUTF, c_str, ht]

theorem C8_decode_returns_piece_witness :
    enLoaded.processor = some 0 ∧ enLoaded.deref 0 = some enVocab
      ∧ ∃ s1 r, decodeNative toy enLoaded 5 = some (s1, r)
      ∧ s1.calls = enLoaded.calls ++ [EngineCall.IdToPiece 0 5]
      ∧ r.data = (toy.IdToPiece enVocab 5).data.takeWhile (fun c => c != NUL)
      ∧ (NUL ∉ (toy.IdToPiece enVocab 5).data → r = toy.IdToPiece enVocab 5) :=
  ⟨rfl, rfl, C8_decode_returns_piece toy enLoaded 5 0 enVocab rfl rfl⟩

/-- C1, as stated, fails: after `loadModel("en.model")` succeeds, a failed
`loadModel("x")` replaces the engine, and the following `encodeNative("ab")`
is answered by the new, unloaded engine (no ids) and not by the engine loaded
from `en.model` (ids 2 and 3). -/
theorem C1_counterexample :
    ¬ ∀ (s : Process (List String)) (P : String) (s1 : Process (List String))
        (cs : List Call) (outs : List Output),
        s.Valid → loadModel toy s P = some (s1, true) →
        (run toy s1 cs).map (fun r => r.2) = some outs →
        Output.jboolean true ∉ outs →
        ∀ co ∈ cs.zip outs, co.1.isLoad = false →
          answer toy (toy.Load toy.ctor (GetStringUTFChars P)).1 co.1 = some co.2 := by
  intro h
  have h1 := h Process.init "en.model" enLoaded
    [Call.loadModel "x", Call.encodeNative "ab"]
    [Output.jboolean false, Output.jintArray []]
    valid_init (by decide) (by decide) (by decide)
    (Call.encodeNative "ab", Output.jintArray []) (by decide) rfl
  revert h1
  decide

/-- C1, amended: when `loadModel(P)` returns true from a valid state, every
later sequence of calls that contains no `loadModel` call at all (successful
or failed) runs to the end, each of its encode and decode calls is answered by
the engine loaded from `P`, on the object constructed by that `loadModel`, and
the pointer and the heap stay as the load left them. -/
theorem C1_model_used_until_next_load (s s1 : Process σ) (P : String) (cs : List Call)
    (hv : s.Valid) (hl : loadModel E s P = some (s1, true))
    (hcs : ∀ c ∈ cs, c.isLoad = false) :
    ∃ s2 outs, run E s1 cs = some (s2, outs)
      ∧ outs.map some = cs.map (answer E (E.Load E.ctor (GetStringUTFChars P)).1)
      ∧ s2.processor = some s.next ∧ s2.heap = s1.heap
      ∧ s2.calls = s1.calls ++ cs.filterMap (Call.onEngine s.next) := by
  obtain ⟨s1a, h1, hproc, hder, -⟩ := loadModel_spec E s P hv.2
  rw [hl] at h1
  have hs : s1a = s1 := (congrArg Prod.fst (Option.some.inj h1)).symm
  subst hs
  obtain ⟨s2, outs, hr, hos, hp2, hh2, hc2⟩ := run_noLoad E cs s1a s.next _ hproc hder hcs
  exact ⟨s2, outs, hr, hos, hp2.trans hproc, hh2, hc2⟩

theorem C1_model_used_until_next_load_witness :
    (Process.init : Process (List String)).Valid
      ∧ loadModel toy Process.init "en.model" = some (enLoaded, true)
      ∧ (∀ c ∈ [Call.encodeNative "ab", Call.decodeNative 1, Call.encodeNative "b"],
          c.isLoad = false)
      ∧ ∃ s2 outs,
        run toy enLoaded [Call.encodeNative "ab", Call.decodeNative 1, Call.encodeNative "b"]
          = some (s2, outs)
      ∧ outs.map some =
          [Call.encodeNative "ab", Call.decodeNative 1, Call.encodeNative "b"].map
            (answer toy (toy.Load toy.ctor (GetStringUTFChars "en.model")).1)
      ∧ s2.processor = some (Process.init : Process (List String)).next
      ∧ s2.heap = enLoaded.heap
      ∧ s2.calls = enLoaded.calls ++
          [Call.encodeNative "ab", Call.decodeNative 1, Call.encodeNative "b"].filterMap
            (Call.onEngine (Process.init : Process (List String)).next) :=
  ⟨valid_init, by decide, by decide,
    C1_model_used_until_next_load toy Process.init enLoaded "en.model" _ valid_init
      (by decide) (by decide)⟩

/-- C6: from every valid prior state and for all paths `P1`, `P2`, both
`loadModel(P1); loadModel(P2)` and `loadModel(P2)` alone return normally with
the same last return value and leave the pointer non-null on an engine in the
same state (the one `Load(P2)` leaves a new engine in), and every later
sequence of calls returns the same values in both runs.  With `P1 = P2` this is
the idempotence of loading a path twice. -/
theorem C6_load_replaces (s : Process σ) (P1 P2 : String) (hv : s.Valid) :
    ∃ sa ba sab bab sb bb,
      loadModel E s P1 = some (sa, ba) ∧ loadModel E sa P2 = some (sab, bab)
      ∧ loadModel E s P2 = some (sb, bb)
      ∧ bab = bb
      ∧ sab.engine = some (E.Load E.ctor (GetStringUTFChars P2)).1
      ∧ sb.engine = some (E.Load E.ctor (GetStringUTFChars P2)).1
      ∧ ∀ cs, ∃ s1 s2 outs, run E sab cs = some (s1, outs) ∧ run E sb cs = some (s2, outs) := by
  obtain ⟨sa, ha, hva, -, -⟩ := loadModel_valid E s P1 hv
  obtain ⟨sab, hab, hvab, -, eab⟩ := loadModel_valid E sa P2 hva
  obtain ⟨sb, hb, hvb, -, eb⟩ := loadModel_valid E s P2 hv
  exact ⟨sa, _, sab, _, sb, _, ha, hab, hb, rfl, eab, eb,
    fun cs => run_sim E cs sab sb hvab hvb (eab.trans eb.symm)⟩

theorem C6_load_replaces_witness :
    enLoaded.Valid ∧ ∃ sa ba sab bab sb bb,
      loadModel toy enLoaded "fr.model" = some (sa, ba)
      ∧ loadModel toy sa "en.model" = some (sab, bab)
      ∧ loadModel toy enLoaded "en.model" = some (sb, bb)
      ∧ bab = bb
      ∧ sab.engine = some (toy.Load toy.ctor (GetStringUTFChars "en.model")).1
      ∧ sb.engine = some (toy.Load toy.ctor (GetStringUTFChars "en.model")).1
      ∧ ∀ cs, ∃ s1 s2 outs, run toy sab cs = some (s1, outs)
          ∧ run toy sb cs = some (s2, outs) :=
  ⟨valid_enLoaded, C6_load_replaces toy enLoaded "fr.model" "en.model" valid_enLoaded⟩

/-- C9: every sequence of `loadModel`, `encodeNative` and `decodeNative` calls
from the initial state runs to the end, and in the state it reaches at most
one engine object is live and the live objects are exactly what the pointer
refers to; a `loadModel` from that state first destroys the object the pointer
refers to (if any), then constructs the new one and loads into it, which
leaves the new object as the only live one. -/
theorem C9_at_most_one_live (cs : List Call) :
    ∃ s outs, run E Process.init cs = some (s, outs)
      ∧ s.live.length ≤ 1 ∧ s.OneLive
      ∧ ∀ P, ∃ s1 b, loadModel E s P = some (s1, b)
          ∧ s1.calls = s.calls ++ s.processor.toList.map EngineCall.destroy
              ++ [EngineCall.construct s.next, EngineCall.Load s.next (GetStringUTFChars P)]
          ∧ s1.live = [s.next] ∧ s1.processor = some s.next := by
  obtain ⟨s, outs, hr, hv, ho, -⟩ := run_valid E cs Process.init valid_init
  have hone : s.OneLive := ho rfl
  refine ⟨s, outs, hr, ?_, hone, ?_⟩
  · rw [hone]; cases s.processor <;> simp
  · intro P
    obtain ⟨s1, h1, hproc, -, -, hlive, hcalls⟩ := loadModel_spec E s P hv.2
    refine ⟨s1, _, h1, hcalls, ?_, hproc⟩
    rw [hlive, hone]
    cases hp : s.processor <;> simp

/-- C10: from every valid state, `encodeNative` and `decodeNative` return and
leave the pointer and the heap unchanged; `loadModel` returns and leaves the
pointer non-null; and once the pointer is non-null it is non-null after every
sequence of calls. -/
theorem C10_only_load_changes_handle (s : Process σ) (hv : s.Valid) :
    (∀ text, ∃ s1 ids, encodeNative E s text = some (s1, ids)
        ∧ s1.processor = s.processor ∧ s1.heap = s.heap)
      ∧ (∀ id, ∃ s1 r, decodeNative E s id = some (s1, r)
        ∧ s1.processor = s.processor ∧ s1.heap = s.heap)
      ∧ (∀ P, ∃ s1 b, loadModel E s P = some (s1, b) ∧ s1.processor ≠ none)
      ∧ (s.processor ≠ none →
          ∀ cs, ∃ s1 outs, run E s cs = some (s1, outs) ∧ s1.processor ≠ none) := by
  refine ⟨?_, ?_, ?_, ?_⟩
  · intro text
    rcases Process.Valid.cases s hv with ⟨hn, -⟩ | ⟨a, p, ha, hp, -⟩
    · exact ⟨s, _, encodeNative_null E s text hn, rfl, rfl⟩
    · exact ⟨_, _, encodeNative_spec E s text a p ha hp, rfl, rfl⟩
  · intro id
    rcases Process.Valid.cases s hv with ⟨hn, -⟩ | ⟨a, p, ha, hp, -⟩
    · exact ⟨s, _, decodeNative_null E s id hn, rfl, rfl⟩
    · exact ⟨_, _, decodeNative_spec E s id a p ha hp, rfl, rfl⟩
  · intro P
    obtain ⟨s1, h1, -, hproc, -⟩ := loadModel_valid E s P hv
    exact ⟨s1, _, h1, by simp [hproc]⟩
  · intro hne cs
    obtain ⟨s1, outs, hr, -, -, hp⟩ := run_valid E cs s hv
    exact ⟨s1, outs, hr, hp hne⟩

theorem C10_only_load_changes_handle_witness :
    enLoaded.Valid
      ∧ (∀ text, ∃ s1 ids, encodeNative toy enLoaded text = some (s1, ids)
        ∧ s1.processor = enLoaded.processor ∧ s1.heap = enLoaded.heap)
      ∧ (∀ id, ∃ s1 r, decodeNative toy enLoaded id = some (s1, r)
        ∧ s1.processor = enLoaded.processor ∧ s1.heap = enLoaded.heap)
      ∧ (∀ P, ∃ s1 b, loadModel toy enLoaded P = some (s1, b) ∧ s1.processor ≠ none)
      ∧ (enLoaded.processor ≠ none →
          ∀ cs, ∃ s1 outs, run toy enLoaded cs = some (s1, outs) ∧ s1.processor ≠ none) :=
  ⟨valid_enLoaded, C10_only_load_changes_handle toy enLoaded valid_enLoaded⟩

end Claims

end PoetryHour
